import Mathlib

/-!
Verification of the LinkedIn ghostwriter content pipeline (`app.py`).

The four pipeline functions are shallowly embedded over `List Char` / `String`:

* `scrape_google_news`  — headline extraction and normalization (feed items are
  modelled as the list of optional `<title>` texts, in document order);
* `construct_viral_prompt` — the deterministic prompt template;
* `call_together_api`   — the generation call, with the transport outcome
  (a reply or a raised exception) passed in explicitly;
* `parse_generated_content` — the marker-based segmentation of the generated
  document, including a faithful embedding of the regex
  `\*\*Day (\d+):[^*]*\*\*` (IGNORECASE) and of `re.finditer` scanning.

Python whitespace (`str.strip`, `\s`) is modelled on the ASCII whitespace
characters; Python `dict` is modelled as an ordered association list with
in-place value update on repeated keys.
-/

/-- ASCII whitespace, the characters Python's `str.strip()` and `\s` treat as
whitespace in the ASCII range. -/
def isPySpace (c : Char) : Bool :=
  c = ' ' || c = '\t' || c = '\n' || c = '\x0d' || c = '\x0b' || c = '\x0c'

/-- Python `str.strip()`: drop leading and trailing whitespace. -/
def pyStrip (l : List Char) : List Char :=
  ((l.dropWhile isPySpace).reverse.dropWhile isPySpace).reverse

/-- `re.sub(r'^\n+', '', s)`: drop the leading run of newlines. -/
def stripLeadNl (l : List Char) : List Char :=
  l.dropWhile (fun c => c = '\n')

/-- `re.sub(r'\n+$', '', s)`: drop the trailing run of newlines. -/
def stripTrailNl (l : List Char) : List Char :=
  (l.reverse.dropWhile (fun c => c = '\n')).reverse

/-- The body clean-up applied by `parse_generated_content`:
`post_content.strip()`, then the two newline `re.sub`s. -/
def stripBody (l : List Char) : List Char :=
  stripTrailNl (stripLeadNl (pyStrip l))

/-- `re.sub(r'\s+', ' ', s)`: collapse every maximal run of whitespace to a
single space.  The flag records whether the previous character was
whitespace (i.e. whether we are inside a run that already emitted its space). -/
def collapseAux : Bool → List Char → List Char
  | _, [] => []
  | prevWs, c :: rest =>
    if isPySpace c then
      if prevWs then collapseAux true rest
      else ' ' :: collapseAux true rest
    else c :: collapseAux false rest

/-- `re.sub(r'\s+', ' ', s)` on a whole string. -/
def collapseWs (l : List Char) : List Char :=
  collapseAux false l

/-- `clean_title = re.sub(r'\s+', ' ', title.text.strip())` in
`scrape_google_news`. -/
def cleanTitle (t : String) : String :=
  String.mk (collapseWs (pyStrip t.data))

/-- The headline-extraction loop of `scrape_google_news` (`app.py` lines
90-100).  A feed is modelled as the list of its `item`s' optional `title`
texts in document order: `none` stands for an item with no `title` element,
`some ""` for a present but empty title (both are skipped by the Python
truthiness test `if title and title.text`). -/
def scrape_google_news (items : List (Option String)) (max_headlines : Nat) :
    List String :=
  (items.take max_headlines).foldl
    (fun headlines title =>
      match title with
      | some t => if t ≠ "" then headlines ++ [cleanTitle t] else headlines
      | none => headlines)
    []

/-- The tail `[^*]*\*\*` of the day-marker regex: greedily consume non-`*`
characters, then require two `*`.  Returns the total number of characters
consumed.  (Backtracking cannot help this pattern: shrinking `[^*]*` puts a
non-`*` character under `\*\*`, so the greedy parse is the only one.) -/
def matchStars : List Char → Option Nat
  | [] => none
  | c :: rest =>
    if c = '*' then
      match rest with
      | c2 :: _ => if c2 = '*' then some 2 else none
      | [] => none
    else (matchStars rest).map (· + 1)

/-- One attempted match of `r'\*\*Day (\d+):[^*]*\*\*'` (with `re.IGNORECASE`)
at the head of `l`.  Returns the captured digit group and the length of the
whole match.  `(\d+)` is greedy and followed by the non-digit `:`, so maximal
munch is the unique parse. -/
def matchDayAt (l : List Char) : Option (List Char × Nat) :=
  match l with
  | a :: b :: c1 :: c2 :: c3 :: c4 :: rest =>
    if a = '*' ∧ b = '*' ∧ (c1 = 'D' ∨ c1 = 'd') ∧ (c2 = 'a' ∨ c2 = 'A') ∧
        (c3 = 'y' ∨ c3 = 'Y') ∧ c4 = ' ' then
      let digits := rest.takeWhile Char.isDigit
      if digits = [] then none
      else
        match rest.dropWhile Char.isDigit with
        | d :: rest3 =>
          if d = ':' then
            match matchStars rest3 with
            | some n => some (digits, 7 + digits.length + n)
            | none => none
          else none
        | [] => none
    else none
  | _ => none

theorem matchStars_bounds (l : List Char) (n : Nat) (h : matchStars l = some n) :
    2 ≤ n ∧ n ≤ l.length := by
  induction l generalizing n with
  | nil => simp [matchStars] at h
  | cons c rest ih =>
    simp only [matchStars] at h
    split at h
    · split at h
      · split at h
        · cases h; simp
        · cases h
      · cases h
    · rcases Option.map_eq_some'.mp h with ⟨m, hm, rfl⟩
      have := ih m hm
      simp only [List.length_cons]
      omega

theorem matchDayAt_bounds (l : List Char) (k : List Char) (n : Nat)
    (h : matchDayAt l = some (k, n)) : 0 < n ∧ n ≤ l.length := by
  match l with
  | [] | [_] | [_, _] | [_, _, _] | [_, _, _, _] | [_, _, _, _, _] =>
    simp [matchDayAt] at h
  | a :: b :: c1 :: c2 :: c3 :: c4 :: rest =>
    simp only [matchDayAt] at h
    split at h
    · split at h
      · cases h
      · split at h
        · rename_i d rest3 heq
          split at h
          · split at h
            · rename_i m hstars
              cases h
              have h1 := matchStars_bounds rest3 m hstars
              have h2 : (rest.takeWhile Char.isDigit).length +
                  (rest.dropWhile Char.isDigit).length = rest.length := by
                rw [← List.length_append, List.takeWhile_append_dropWhile]
              have h3 : (rest.dropWhile Char.isDigit).length = rest3.length + 1 := by
                rw [heq]; simp
              simp only [List.length_cons]
              omega
            · cases h
          · cases h
        · cases h
    · cases h

theorem matchDayAt_digits (l : List Char) (k : List Char) (n : Nat)
    (h : matchDayAt l = some (k, n)) : k ≠ [] ∧ ∀ c ∈ k, c.isDigit := by
  match l with
  | [] | [_] | [_, _] | [_, _, _] | [_, _, _, _] | [_, _, _, _, _] =>
    simp [matchDayAt] at h
  | a :: b :: c1 :: c2 :: c3 :: c4 :: rest =>
    simp only [matchDayAt] at h
    split at h
    · split at h
      · cases h
      · split at h
        · split at h
          · split at h
            · cases h
              exact ⟨by assumption, fun c hc => List.mem_takeWhile_imp hc⟩
            · cases h
          · cases h
        · cases h
    · cases h

/-- The scan of `re.finditer(day_pattern, content, re.IGNORECASE)`
(`app.py` line 266): try a match at the current position; on success record
`(group 1, match start, match end)` and continue at the match end, otherwise
advance one character.  `l` is the suffix of the document at absolute
position `p`. -/
def findMatches (l : List Char) (p : Nat) : List (List Char × Nat × Nat) :=
  match hm : matchDayAt l with
  | some (k, len) => (k, p, p + len) :: findMatches (l.drop len) (p + len)
  | none =>
    match l with
    | [] => []
    | _ :: tl => findMatches tl (p + 1)
termination_by l.length
decreasing_by
  · have hb := matchDayAt_bounds l k len hm
    simp only [List.length_drop]
    omega
  · simp

/-- Fuel-indexed, structurally recursive form of `findMatches`, used so that
concrete instances evaluate inside the kernel. -/
def scanFuel : Nat → List Char → Nat → List (List Char × Nat × Nat)
  | 0, _, _ => []
  | fuel + 1, l, p =>
    match matchDayAt l with
    | some (k, len) => (k, p, p + len) :: scanFuel fuel (l.drop len) (p + len)
    | none =>
      match l with
      | [] => []
      | _ :: tl => scanFuel fuel tl (p + 1)

theorem findMatches_nil (p : Nat) : findMatches [] p = [] := by
  rw [findMatches]
  rfl

theorem findMatches_some (l : List Char) (p : Nat) (k : List Char) (len : Nat)
    (hm : matchDayAt l = some (k, len)) :
    findMatches l p = (k, p, p + len) :: findMatches (l.drop len) (p + len) := by
  rw [findMatches]
  split
  · rename_i k2 len2 hm2
    rw [hm] at hm2
    cases hm2
    rfl
  · rename_i hm2
    rw [hm] at hm2
    cases hm2

theorem findMatches_none_cons (c : Char) (tl : List Char) (p : Nat)
    (hm : matchDayAt (c :: tl) = none) :
    findMatches (c :: tl) p = findMatches tl (p + 1) := by
  rw [findMatches]
  split
  · rename_i k len hm2
    rw [hm] at hm2
    cases hm2
  · rfl

theorem findMatches_eq_scanFuel (fuel : Nat) (l : List Char) (p : Nat)
    (h : l.length ≤ fuel) : findMatches l p = scanFuel fuel l p := by
  induction fuel generalizing l p with
  | zero =>
    have hl : l = [] := List.length_eq_zero.mp (Nat.le_zero.mp h)
    subst hl
    rw [findMatches_nil]
    rfl
  | succ fuel ih =>
    cases hm : matchDayAt l with
    | some kl =>
      obtain ⟨k, len⟩ := kl
      rw [findMatches_some l p k len hm]
      have hb := matchDayAt_bounds l k len hm
      rw [ih (l.drop len) (p + len) (by simp only [List.length_drop]; omega)]
      simp [scanFuel, hm]
    | none =>
      cases l with
      | nil =>
        rw [findMatches_nil]
        rfl
      | cons c tl =>
        rw [findMatches_none_cons c tl p hm]
        rw [ih tl (p + 1) (by simp only [List.length_cons] at h; omega)]
        simp [scanFuel, hm]

theorem findMatches_eval (l : List Char) (p : Nat) :
    findMatches l p = scanFuel l.length l p :=
  findMatches_eq_scanFuel l.length l p (Nat.le_refl _)

/-- The body-extraction loop of `parse_generated_content` (`app.py` lines
268-285): for each match, the body runs from the match's end to the next
match's start (or to the end of the document), and is cleaned by `stripBody`.
Keys are the captured digit strings, used verbatim. -/
def collectPosts (content : List Char) :
    List (List Char × Nat × Nat) → List (String × String)
  | [] => []
  | (k, _, e) :: rest =>
    let endPos :=
      match rest with
      | (_, s2, _) :: _ => s2
      | [] => content.length
    (String.mk k, String.mk (stripBody ((content.drop e).take (endPos - e)))) ::
      collectPosts content rest

/-- Python `posts[day_num] = post_content` on a dict modelled as an ordered
association list: update the value in place if the key is present, else
append. -/
def dictInsert (d : List (String × String)) (k v : String) :
    List (String × String) :=
  if d.any (fun kv => kv.1 = k) then
    d.map (fun kv => if kv.1 = k then (k, v) else kv)
  else d ++ [(k, v)]

/-- Python `posts.get(k)` / `posts[k]` on the association-list dict. -/
def lookupD (d : List (String × String)) (k : String) : Option String :=
  (d.find? (fun kv => kv.1 = k)).map (fun kv => kv.2)

/-- `parse_generated_content` (`app.py` lines 252-287): find all day markers,
cut the text between consecutive markers into bodies, clean each body, and
build the day-number-keyed dict in scan order with last-write-wins on
duplicate keys. -/
def parse_generated_content (content : List Char) : List (String × String) :=
  (collectPosts content (findMatches content 0)).foldl
    (fun posts kv => dictInsert posts kv.1 kv.2) []

theorem parse_eval (content : List Char) :
    parse_generated_content content =
      (collectPosts content (scanFuel content.length content 0)).foldl
        (fun posts kv => dictInsert posts kv.1 kv.2) [] := by
  unfold parse_generated_content
  rw [findMatches_eval]

/-- The start position of match `i + 1`, or the document length if match `i`
is the last one: the right edge of the `i`-th body in
`parse_generated_content`. -/
def nextStart (content : List Char) (ms : List (List Char × Nat × Nat))
    (i : Nat) : Nat :=
  match ms[i + 1]? with
  | some m => m.2.1
  | none => content.length

/-- A Python exception value, as far as `call_together_api` distinguishes
them: the app's `TogetherAPIError`, or any other exception (network,
authentication, SDK errors ...).  `str(e)` returns the stored message in
both cases. -/
inductive PyExc where
  | togetherAPIError (msg : String)
  | otherExc (msg : String)
deriving DecidableEq

/-- Python `str(e)`. -/
def excStr : PyExc → String
  | .togetherAPIError m => m
  | .otherExc m => m

structure ChatMessage where
  content : String
deriving DecidableEq

structure ApiChoice where
  message : ChatMessage
deriving DecidableEq

/-- The Together chat-completions response, as far as the code reads it:
`response.choices[i].message.content`. -/
structure ApiResponse where
  choices : List ApiChoice
deriving DecidableEq

/-- What the transport call `client.chat.completions.create(...)` did:
returned a response, or raised an exception. -/
inductive TransportOutcome where
  | reply (response : ApiResponse)
  | raises (e : PyExc)

/-- The `try` body of `call_together_api` (`app.py` lines 223-247): if the
transport raised, the exception propagates; otherwise, if there is at least
one choice, return its stripped content, else raise
`TogetherAPIError("No content generated by API")`. -/
def call_together_api_try (outcome : TransportOutcome) : Except PyExc String :=
  match outcome with
  | .raises e => .error e
  | .reply response =>
    match response.choices with
    | choice :: _ => .ok (String.mk (pyStrip choice.message.content.data))
    | [] => .error (.togetherAPIError "No content generated by API")

/-- `call_together_api` (`app.py` lines 208-250): the whole `try` body runs
under `except Exception as e: raise TogetherAPIError(f"API request failed:
{str(e)}")`, so every exception — including the zero-choices
`TogetherAPIError` raised inside the `try` — is caught and re-wrapped. -/
def call_together_api (outcome : TransportOutcome) : Except PyExc String :=
  match call_together_api_try outcome with
  | .ok v => .ok v
  | .error e => .error (.togetherAPIError ("API request failed: " ++ excStr e))

/-- `construct_viral_prompt` (`app.py` lines 107-206): render the headline
bullet list and splice industry, bio and recent post into the fixed
instructional template. -/
def construct_viral_prompt (bio recent_post industry : String)
    (headlines : List String) : String :=
  let headlines_text := String.intercalate "\n"
    (headlines.map (fun headline => "• " ++ headline))
  "You are an elite LinkedIn ghostwriter and viral content strategist with expertise in creating thought leadership content that achieves maximum engagement, shares, and industry influence. Your mission is to craft a strategic 7-day content calendar that positions the user as an authoritative voice while driving exceptional viral performance.\n\nTARGET PROFILE ANALYSIS:\nIndustry: " ++
    industry ++
    "\nProfessional Bio: " ++
    bio ++
    "\nVoice Reference (Recent Post): " ++
    recent_post ++
    "\n\nCURRENT MARKET INTELLIGENCE:\n" ++
    headlines_text ++
    "\n\nVIRAL CONTENT STRATEGY REQUIREMENTS:\n\n🎯 ENGAGEMENT OPTIMIZATION:\n- Each post must include a compelling hook within the first 2 lines\n- Use psychological triggers: curiosity gaps, social proof, controversy, urgency\n- Incorporate pattern interrupts and unexpected insights\n- Design posts for maximum shareability and comment generation\n\n📊 CONTENT PERFORMANCE FRAMEWORK:\n- Post length: 150-300 words (optimized for LinkedIn algorithm)\n- Include 3-5 strategic hashtags (mix of trending and niche)\n- End with strong call-to-action that encourages engagement\n- Use formatting that enhances readability (line breaks, emojis, bullets)\n\n🔥 VIRAL CONTENT TYPES (Use variety across 7 days):\n1. **Controversial Take**: Challenge conventional industry wisdom\n2. **Behind-the-Scenes**: Share exclusive insider perspectives\n3. **Prediction Post**: Make bold, data-backed future predictions\n4. **Failure Story**: Transform personal setbacks into teachable moments\n5. **Industry Myth-Buster**: Debunk common misconceptions with evidence\n6. **Trend Analysis**: Connect current events to industry implications\n7. **Contrarian Insight**: Present unpopular but valuable perspectives\n\n💡 PSYCHOLOGICAL ENGAGEMENT TACTICS:\n- Open loops and curiosity gaps\n- Social proof and authority positioning\n- Emotional storytelling with logical conclusions\n- Surprise elements and unexpected twists\n- Interactive elements encouraging responses\n\n🎨 CONTENT ARCHITECTURE:\n- Hook (attention-grabbing opening)\n- Context (relevant background/story)\n- Core insight (valuable takeaway)\n- Evidence (data, examples, proof points)\n- Call-to-action (engagement driver)\n\nVOICE MATCHING PROTOCOL:\nAnalyze the provided recent post and bio to maintain consistent:\n- Tone and personality\n- Industry expertise level\n- Communication style\n- Professional positioning\n- Authentic voice patterns\n\nFORMAT REQUIREMENTS:\n**Day 1: [Compelling Title with Emotional Hook]**\n[Post content with strategic formatting]\n[3-5 relevant hashtags]\n[Strong call-to-action]\n\n**Day 2: [Next Compelling Title]**\n[Post content with strategic formatting]\n[3-5 relevant hashtags]\n[Strong call-to-action]\n\n[Continue for all 7 days]\n\nVIRAL SUCCESS METRICS TO OPTIMIZE FOR:\n- Comments: Design posts that naturally generate discussion\n- Shares: Create content worth sharing with networks\n- Saves: Provide actionable insights people want to reference\n- Profile visits: Position expertise to drive connection requests\n- Industry influence: Establish thought leadership authority\n\nEXECUTION STANDARDS:\n- Every post must provide genuine value to the reader\n- Maintain professional credibility while being engaging\n- Ensure content is original and not recycled industry clichés\n- Balance personal authenticity with strategic viral elements\n- Create content that reflects expertise while being accessible\n\nGenerate 7 strategically different posts that collectively build a powerful thought leadership narrative while maximizing viral potential across diverse content formats and engagement strategies."

/-- Split on `'\n'` into lines (the separators are not kept). -/
def splitOnNl : List Char → List (List Char)
  | [] => [[]]
  | c :: rest =>
    match splitOnNl rest with
    | [] => [[c]]
    | l :: ls => if c = '\n' then [] :: l :: ls else (c :: l) :: ls

/-- A blank line: empty or whitespace-only. -/
def isBlankLine (line : List Char) : Bool :=
  line.all isPySpace

/-- The body clean-up as claim C1 words it: remove the run of leading blank
lines and the run of trailing blank lines, and nothing else. -/
def specStripBlankLines (l : List Char) : List Char :=
  List.intercalate ['\n']
    ((((splitOnNl l).dropWhile isBlankLine).reverse.dropWhile isBlankLine).reverse)

/-- No two adjacent whitespace characters. -/
def noTwoWs : List Char → Bool
  | [] => true
  | [_] => true
  | a :: b :: rest => (!(isPySpace a && isPySpace b)) && noTwoWs (b :: rest)

/-- A fully normalized headline: every whitespace character is a plain space,
no two adjacent whitespace characters, and no leading or trailing
whitespace. -/
def wsNormalized (l : List Char) : Prop :=
  l.all (fun c => !isPySpace c || c = ' ') = true ∧
  noTwoWs l = true ∧
  l.head?.all (fun c => !isPySpace c) = true ∧
  l.getLast?.all (fun c => !isPySpace c) = true

theorem lookupD_nil (k : String) : lookupD [] k = none := rfl

theorem lookupD_cons (x : String × String) (tl : List (String × String))
    (k : String) :
    lookupD (x :: tl) k = if x.1 = k then some x.2 else lookupD tl k := by
  unfold lookupD
  by_cases h : x.1 = k
  · rw [List.find?_cons_of_pos _ (by simpa using h), if_pos h]
    rfl
  · rw [List.find?_cons_of_neg _ (by simpa using h), if_neg h]

theorem lookupD_map_upd (d : List (String × String)) (k v k' : String) :
    lookupD (d.map (fun kv => if kv.1 = k then (k, v) else kv)) k' =
      if k' = k then (if d.any (fun kv => kv.1 = k) then some v else none)
      else lookupD d k' := by
  induction d with
  | nil =>
    simp only [List.map_nil, List.any_nil, lookupD_nil]
    split <;> rfl
  | cons x tl ih =>
    by_cases hx : x.1 = k <;> by_cases hk : k' = k
    · subst hk
      simp [lookupD_cons, hx, ih]
    · have hks : ¬(k = k') := fun h => hk h.symm
      simp [lookupD_cons, hx, ih, hk, hks]
    · subst hk
      simp [lookupD_cons, hx, ih]
      rw [decide_eq_false hx, Bool.false_or]
    · simp [lookupD_cons, hx, ih, hk]

theorem lookupD_dictInsert (d : List (String × String)) (k v k' : String) :
    lookupD (dictInsert d k v) k' = if k' = k then some v else lookupD d k' := by
  unfold dictInsert
  split
  · rename_i hany
    rw [lookupD_map_upd, hany]
    simp
  · rename_i hany
    unfold lookupD
    rw [List.find?_append]
    by_cases hk : k' = k
    · subst hk
      have hnone : d.find? (fun kv => kv.1 = k') = none := by
        rw [List.find?_eq_none]
        intro x hx hpx
        exact hany (List.any_eq_true.mpr ⟨x, hx, hpx⟩)
      rw [hnone]
      simp
    · have hks : ¬(k = k') := fun h => hk h.symm
      have h1 : ([(k, v)].find? fun kv => kv.1 = k') = none := by
        simp [hks]
      rw [h1, if_neg hk]
      cases d.find? (fun kv => kv.1 = k') <;> rfl

theorem lookupD_fold (l : List (String × String)) (d : List (String × String))
    (k : String) :
    lookupD (l.foldl (fun posts kv => dictInsert posts kv.1 kv.2) d) k =
      match l.reverse.find? (fun kv => kv.1 = k) with
      | some kv => some kv.2
      | none => lookupD d k := by
  induction l generalizing d with
  | nil => simp
  | cons x tl ih =>
    simp only [List.foldl_cons, List.reverse_cons, List.find?_append, ih]
    cases hf : tl.reverse.find? (fun kv => kv.1 = k) with
    | some kv => simp [Option.or]
    | none =>
      simp only [Option.or_none, Option.none_or, lookupD_dictInsert]
      by_cases hk : x.1 = k
      · simp [hk]
      · have hks : ¬(k = x.1) := fun h => hk h.symm
        simp [hk, hks]

theorem mem_dictInsert (d : List (String × String)) (k v : String)
    (kv : String × String) (h : kv ∈ dictInsert d k v) : kv ∈ d ∨ kv = (k, v) := by
  unfold dictInsert at h
  split at h
  · rcases List.mem_map.mp h with ⟨x, hx, hxe⟩
    by_cases hxk : x.1 = k
    · right
      rw [if_pos hxk] at hxe
      exact hxe.symm
    · left
      rw [if_neg hxk] at hxe
      exact hxe ▸ hx
  · rcases List.mem_append.mp h with h1 | h1
    · exact Or.inl h1
    · right
      simpa using h1

theorem mem_fold_dict (l : List (String × String)) (d : List (String × String))
    (kv : String × String)
    (h : kv ∈ l.foldl (fun posts x => dictInsert posts x.1 x.2) d) :
    kv ∈ d ∨ kv ∈ l := by
  induction l generalizing d with
  | nil => exact Or.inl h
  | cons x tl ih =>
    simp only [List.foldl_cons] at h
    rcases ih _ h with h1 | h1
    · rcases mem_dictInsert _ _ _ _ h1 with h2 | h2
      · exact Or.inl h2
      · right
        rw [h2, Prod.mk.eta]
        exact List.mem_cons_self x tl
    · exact Or.inr (List.mem_cons_of_mem _ h1)

theorem nextStart_cons (content : List Char) (m : List Char × Nat × Nat)
    (tl : List (List Char × Nat × Nat)) (i : Nat) :
    nextStart content (m :: tl) (i + 1) = nextStart content tl i := by
  simp [nextStart]

theorem collectPosts_length (content : List Char)
    (ms : List (List Char × Nat × Nat)) :
    (collectPosts content ms).length = ms.length := by
  induction ms with
  | nil => rfl
  | cons m tl ih =>
    obtain ⟨k, s, e⟩ := m
    simp [collectPosts, ih]

theorem collectPosts_keys (content : List Char)
    (ms : List (List Char × Nat × Nat)) :
    (collectPosts content ms).map (fun kv => kv.1) =
      ms.map (fun m => String.mk m.1) := by
  induction ms with
  | nil => rfl
  | cons m tl ih =>
    obtain ⟨k, s, e⟩ := m
    simp [collectPosts, ih]

theorem collectPosts_cons (content : List Char) (k : List Char) (s e : Nat)
    (tl : List (List Char × Nat × Nat)) :
    collectPosts content ((k, s, e) :: tl) =
      (String.mk k, String.mk (stripBody ((content.drop e).take
        (nextStart content ((k, s, e) :: tl) 0 - e)))) ::
        collectPosts content tl := by
  cases tl with
  | nil => simp [collectPosts, nextStart]
  | cons m2 tl2 =>
    obtain ⟨k2, s2, e2⟩ := m2
    simp [collectPosts, nextStart]

theorem collectPosts_get (content : List Char)
    (ms : List (List Char × Nat × Nat)) (i : Nat) (k : List Char) (s e : Nat)
    (hi : ms[i]? = some (k, s, e)) :
    (collectPosts content ms)[i]? =
      some (String.mk k,
        String.mk (stripBody
          ((content.drop e).take (nextStart content ms i - e)))) := by
  induction ms generalizing i with
  | nil => simp at hi
  | cons m tl ih =>
    obtain ⟨k0, s0, e0⟩ := m
    cases i with
    | zero =>
      simp only [List.getElem?_cons_zero, Option.some.injEq] at hi
      obtain ⟨rfl, rfl, rfl⟩ := hi
      rw [collectPosts_cons, List.getElem?_cons_zero]
    | succ i =>
      simp only [List.getElem?_cons_succ] at hi
      rw [collectPosts_cons, List.getElem?_cons_succ, nextStart_cons]
      exact ih i hi

theorem dropWhile_ne_nil_append (p : Char → Bool) (xs r : List Char)
    (h : xs.dropWhile p ≠ []) :
    (xs ++ r).takeWhile p = xs.takeWhile p ∧
    (xs ++ r).dropWhile p = xs.dropWhile p ++ r := by
  induction xs with
  | nil => simp [List.dropWhile] at h
  | cons c tl ih =>
    by_cases hc : p c
    · have h2 : tl.dropWhile p ≠ [] := by
        simpa [List.dropWhile_cons, hc] using h
      obtain ⟨h3, h4⟩ := ih h2
      simp [List.takeWhile_cons, List.dropWhile_cons, hc, h3, h4]
    · simp [List.takeWhile_cons, List.dropWhile_cons, hc]

theorem matchStars_append (l r : List Char) (n : Nat)
    (h : matchStars l = some n) : matchStars (l ++ r) = some n := by
  induction l generalizing n with
  | nil => simp [matchStars] at h
  | cons c tl ih =>
    by_cases hc : c = '*'
    · cases tl with
      | nil => simp [matchStars, hc] at h
      | cons c2 tl2 =>
        by_cases hc2 : c2 = '*'
        · simp only [matchStars, if_pos hc, if_pos hc2] at h
          simpa [matchStars, hc, hc2] using h
        · simp [matchStars, hc, hc2] at h
    · simp only [List.cons_append, matchStars, if_neg hc, List.append_eq] at h ⊢
      rcases Option.map_eq_some'.mp h with ⟨m, hm, rfl⟩
      rw [ih m hm]
      rfl

theorem matchDayAt_append (l r : List Char) (k : List Char) (n : Nat)
    (h : matchDayAt l = some (k, n)) : matchDayAt (l ++ r) = some (k, n) := by
  match l with
  | [] | [_] | [_, _] | [_, _, _] | [_, _, _, _] | [_, _, _, _, _] =>
    simp [matchDayAt] at h
  | a :: b :: c1 :: c2 :: c3 :: c4 :: rest =>
    simp only [matchDayAt] at h
    split at h
    · rename_i hcond
      split at h
      · cases h
      · rename_i hne
        split at h
        · rename_i d rest3 heq
          split at h
          · rename_i hd
            split at h
            · rename_i m hstars
              cases h
              have hdw := dropWhile_ne_nil_append Char.isDigit rest r
                (by rw [heq]; simp)
              have hstars2 := matchStars_append rest3 r m hstars
              subst hd
              simp only [List.cons_append, matchDayAt, hdw.1, hdw.2, heq,
                if_pos hcond, if_neg hne]
              simp [hstars2]
            · cases h
          · cases h
        · cases h
    · cases h

theorem findMatches_gap_empty (l : List Char) : ∀ (p : Nat),
    findMatches l p = [] → ∀ q, matchDayAt (l.drop q) = none := by
  induction l with
  | nil =>
    intro p _ q
    rw [List.drop_nil]
    rfl
  | cons c tl ih =>
    intro p h q
    cases hm : matchDayAt (c :: tl) with
    | some kl =>
      obtain ⟨k, len⟩ := kl
      rw [findMatches_some _ p k len hm] at h
      cases h
    | none =>
      rw [findMatches_none_cons c tl p hm] at h
      cases q with
      | zero => exact hm
      | succ q =>
        rw [List.drop_succ_cons]
        exact ih (p + 1) h q

theorem findMatches_gap_head (l : List Char) : ∀ (p : Nat) (k : List Char)
    (s e : Nat) (rest : List (List Char × Nat × Nat)),
    findMatches l p = (k, s, e) :: rest → ∀ q, p ≤ q → q < s →
    matchDayAt (l.drop (q - p)) = none := by
  induction l with
  | nil =>
    intro p k s e rest h q _ _
    rw [findMatches_nil] at h
    cases h
  | cons c tl ih =>
    intro p k s e rest h q hpq hqs
    cases hm : matchDayAt (c :: tl) with
    | some kl =>
      obtain ⟨k0, len⟩ := kl
      rw [findMatches_some _ p k0 len hm] at h
      simp only [List.cons.injEq, Prod.mk.injEq] at h
      obtain ⟨⟨_, rfl, _⟩, _⟩ := h
      omega
    | none =>
      rw [findMatches_none_cons c tl p hm] at h
      rcases Nat.lt_or_ge q (p + 1) with hq | hq
      · have hqp : q = p := by omega
        subst hqp
        rw [Nat.sub_self, List.drop_zero]
        exact hm
      · have hd : q - p = (q - (p + 1)) + 1 := by omega
        rw [hd, List.drop_succ_cons]
        exact ih (p + 1) k s e rest h q hq hqs

theorem findMatches_head_structure (l : List Char) : ∀ (p : Nat)
    (k : List Char) (s e : Nat) (rest : List (List Char × Nat × Nat)),
    findMatches l p = (k, s, e) :: rest →
    p ≤ s ∧ s < e ∧ e ≤ p + l.length ∧
    matchDayAt (l.drop (s - p)) = some (k, e - s) ∧
    rest = findMatches (l.drop (e - p)) e := by
  induction l with
  | nil =>
    intro p k s e rest h
    rw [findMatches_nil] at h
    cases h
  | cons c tl ih =>
    intro p k s e rest h
    cases hm : matchDayAt (c :: tl) with
    | some kl =>
      obtain ⟨k0, len⟩ := kl
      rw [findMatches_some _ p k0 len hm] at h
      simp only [List.cons.injEq, Prod.mk.injEq] at h
      obtain ⟨⟨rfl, rfl, rfl⟩, rfl⟩ := h
      have hb := matchDayAt_bounds _ _ _ hm
      simp only [List.length_cons] at hb
      refine ⟨Nat.le_refl _, by omega, by simp only [List.length_cons]; omega,
        ?_, ?_⟩
      · rw [Nat.sub_self, List.drop_zero, Nat.add_sub_cancel_left]
        exact hm
      · rw [Nat.add_sub_cancel_left]
    | none =>
      rw [findMatches_none_cons c tl p hm] at h
      obtain ⟨h1, h2, h3, h4, h5⟩ := ih (p + 1) k s e rest h
      refine ⟨by omega, h2, by simp only [List.length_cons]; omega, ?_, ?_⟩
      · rw [show s - p = (s - (p + 1)) + 1 from by omega, List.drop_succ_cons]
        exact h4
      · rw [show e - p = (e - (p + 1)) + 1 from by omega, List.drop_succ_cons]
        exact h5

theorem dropWhile_head_false (p : Char → Bool) (l : List Char) (c : Char)
    (h : (l.dropWhile p).head? = some c) : p c = false := by
  induction l with
  | nil => simp [List.dropWhile] at h
  | cons a tl ih =>
    rw [List.dropWhile_cons] at h
    split at h
    · exact ih h
    · rename_i ha
      simp only [List.head?_cons, Option.some.injEq] at h
      subst h
      exact Bool.not_eq_true _ ▸ ha

theorem getLast?_suffix (X Z : List Char) (h : X <:+ Z) (hne : X ≠ []) :
    Z.getLast? = X.getLast? := by
  obtain ⟨w, rfl⟩ := h
  rw [List.getLast?_append]
  cases hx : X.getLast? with
  | none => exact absurd (List.getLast?_eq_none_iff.mp hx) hne
  | some c => rfl

theorem pyStrip_head_not_ws (l : List Char) (c : Char)
    (h : (pyStrip l).head? = some c) : isPySpace c = false := by
  unfold pyStrip at h
  rw [List.head?_reverse] at h
  have hYne : (l.dropWhile isPySpace).reverse.dropWhile isPySpace ≠ [] := by
    intro he
    rw [he] at h
    cases h
  have hsuf := List.dropWhile_suffix (l := (l.dropWhile isPySpace).reverse)
    isPySpace
  have h2 := getLast?_suffix _ _ hsuf hYne
  rw [List.getLast?_reverse] at h2
  rw [← h2] at h
  exact dropWhile_head_false isPySpace l c h

theorem pyStrip_last_not_ws (l : List Char) (c : Char)
    (h : (pyStrip l).getLast? = some c) : isPySpace c = false := by
  unfold pyStrip at h
  rw [List.getLast?_reverse] at h
  exact dropWhile_head_false isPySpace (l.dropWhile isPySpace).reverse c h

theorem stripLeadNl_of_head (l : List Char)
    (h : ∀ c, l.head? = some c → isPySpace c = false) : stripLeadNl l = l := by
  cases l with
  | nil => rfl
  | cons c tl =>
    unfold stripLeadNl
    rw [List.dropWhile_cons]
    have hc := h c (by rfl)
    have hcn : ¬(c = '\n') := by
      intro he
      rw [he] at hc
      simp [isPySpace] at hc
    simp [hcn]

theorem stripTrailNl_of_last (l : List Char)
    (h : ∀ c, l.getLast? = some c → isPySpace c = false) : stripTrailNl l = l := by
  unfold stripTrailNl
  cases hr : l.reverse with
  | nil =>
    have : l = [] := by simpa using congrArg List.reverse hr
    simp [this]
  | cons c tl =>
    have hc := h c (by rw [← List.head?_reverse, hr]; rfl)
    have hcn : ¬(c = '\n') := by
      intro he
      rw [he] at hc
      simp [isPySpace] at hc
    rw [List.dropWhile_cons]
    simp only [decide_eq_true_eq, hcn, if_false]
    rw [← hr, List.reverse_reverse]

theorem stripBody_eq_pyStrip (l : List Char) : stripBody l = pyStrip l := by
  unfold stripBody
  rw [stripLeadNl_of_head _ (fun c h => pyStrip_head_not_ws l c h),
    stripTrailNl_of_last _ (fun c h => pyStrip_last_not_ws l c h)]

theorem pyStrip_infix (l : List Char) : ∃ u w, l = u ++ pyStrip l ++ w := by
  have h1 : ((l.dropWhile isPySpace).reverse.takeWhile isPySpace) ++
      ((l.dropWhile isPySpace).reverse.dropWhile isPySpace) =
      (l.dropWhile isPySpace).reverse := by
    rw [List.takeWhile_append_dropWhile]
  have h2 := congrArg List.reverse h1
  rw [List.reverse_append, List.reverse_reverse] at h2
  refine ⟨l.takeWhile isPySpace,
    ((l.dropWhile isPySpace).reverse.takeWhile isPySpace).reverse, ?_⟩
  unfold pyStrip
  rw [List.append_assoc, h2, List.takeWhile_append_dropWhile]

theorem drop_take_comm (X : List Char) (q o : Nat) (h : o ≤ q) :
    (X.take q).drop o = (X.drop o).take (q - o) := by
  have h2 := (List.take_drop o (q - o) X).symm
  rw [show o + (q - o) = q from by omega] at h2
  exact h2

theorem drop_append_middle (u m w : List Char) (j : Nat) (h : j ≤ m.length) :
    (u ++ m ++ w).drop (u.length + j) = m.drop j ++ w := by
  rw [List.append_assoc, ← List.drop_drop, List.drop_left,
    List.drop_append_of_le_length h]

/-- If every position of `[e, nxt)` fails to start a marker match, then no
marker matches anywhere inside the cleaned body cut from `[e, nxt)`. -/
theorem slice_no_marker (content : List Char) (e nxt : Nat)
    (hgap : ∀ q, e ≤ q → q < nxt → matchDayAt (content.drop q) = none)
    (j : Nat) :
    matchDayAt ((stripBody ((content.drop e).take (nxt - e))).drop j) = none := by
  cases hmm : matchDayAt
      ((stripBody ((content.drop e).take (nxt - e))).drop j) with
  | none => rfl
  | some kl =>
    obtain ⟨d, L⟩ := kl
    exfalso
    rw [stripBody_eq_pyStrip] at hmm
    have hb := matchDayAt_bounds _ _ _ hmm
    obtain ⟨u, w, heq⟩ := pyStrip_infix ((content.drop e).take (nxt - e))
    have hjlt : j < (pyStrip ((content.drop e).take (nxt - e))).length := by
      have h2 := hb.2
      have h1 := hb.1
      simp only [List.length_drop] at h2
      omega
    -- a successful match inside the stripped body extends to the raw slice
    have hext := matchDayAt_append _ w _ _ hmm
    have hdr : ((content.drop e).take (nxt - e)).drop (u.length + j) =
        (pyStrip ((content.drop e).take (nxt - e))).drop j ++ w := by
      conv_lhs => rw [heq]
      exact drop_append_middle u _ w j (Nat.le_of_lt hjlt)
    rw [← hdr] at hext
    -- and from the slice to the whole document at position e + u.length + j
    have hlt : u.length + j < nxt - e := by
      have hb2 := (matchDayAt_bounds _ _ _ hext).2
      have hb1 := (matchDayAt_bounds _ _ _ hext).1
      simp only [List.length_drop, List.length_take, List.length_drop] at hb2
      omega
    have hcomm : ((content.drop e).take (nxt - e)).drop (u.length + j) =
        ((content.drop e).drop (u.length + j)).take (nxt - e - (u.length + j)) :=
      drop_take_comm _ _ _ (Nat.le_of_lt hlt)
    rw [hcomm] at hext
    have hext2 := matchDayAt_append _
      (((content.drop e).drop (u.length + j)).drop (nxt - e - (u.length + j)))
      _ _ hext
    rw [List.take_append_drop] at hext2
    rw [List.drop_drop] at hext2
    have := hgap (e + (u.length + j)) (by omega) (by omega)
    rw [this] at hext2
    cases hext2

/-- Every entry `collectPosts` builds from an actual scan has a non-empty
all-digit key, and its cleaned body contains no complete day marker. -/
theorem collectPosts_sound (ms : List (List Char × Nat × Nat)) :
    ∀ (content : List Char) (p : Nat), p ≤ content.length →
    findMatches (content.drop p) p = ms →
    ∀ kv ∈ collectPosts content ms,
      (kv.1.data ≠ [] ∧ ∀ c ∈ kv.1.data, c.isDigit) ∧
      (∀ j, matchDayAt (kv.2.data.drop j) = none) := by
  induction ms with
  | nil =>
    intro content p _ _ kv hkv
    simp [collectPosts] at hkv
  | cons m tl ih =>
    obtain ⟨k, s, e⟩ := m
    intro content p hp h kv hkv
    obtain ⟨h1, h2, h3, h4, h5⟩ := findMatches_head_structure _ _ _ _ _ _ h
    have hel : e ≤ content.length := by
      simp only [List.length_drop] at h3
      omega
    have hdd : (content.drop p).drop (e - p) = content.drop e := by
      rw [List.drop_drop]
      congr 1
      omega
    rw [hdd] at h5
    rw [collectPosts_cons] at hkv
    rcases List.mem_cons.mp hkv with hkv | hkv
    · subst hkv
      have hd := matchDayAt_digits _ _ _ h4
      refine ⟨⟨hd.1, hd.2⟩, ?_⟩
      intro j
      show matchDayAt ((stripBody ((content.drop e).take
        (nextStart content ((k, s, e) :: tl) 0 - e))).drop j) = none
      apply slice_no_marker
      intro q hq hq2
      cases htl : tl with
      | nil =>
        rw [htl] at h5
        have hge := findMatches_gap_empty (content.drop e) e h5.symm (q - e)
        rw [List.drop_drop, show e + (q - e) = q from by omega] at hge
        exact hge
      | cons m2 tl2 =>
        obtain ⟨k2, s2, e2⟩ := m2
        rw [htl] at h5
        rw [htl] at hq2
        have hq3 : q < s2 := by
          simpa [nextStart] using hq2
        have hgh := findMatches_gap_head (content.drop e) e k2 s2 e2 tl2
          h5.symm q hq hq3
        rw [List.drop_drop, show e + (q - e) = q from by omega] at hgh
        exact hgh
    · exact ih content e hel h5.symm kv hkv

/-- Key and body invariants of `parse_generated_content`: every key is a
non-empty digit string, and no body contains a complete day marker. -/
theorem parse_sound (content : List Char) (kv : String × String)
    (hkv : kv ∈ parse_generated_content content) :
    (kv.1.data ≠ [] ∧ ∀ c ∈ kv.1.data, c.isDigit) ∧
    ∀ j, matchDayAt (kv.2.data.drop j) = none := by
  unfold parse_generated_content at hkv
  rcases mem_fold_dict _ _ _ hkv with h | h
  · cases h
  · exact collectPosts_sound (findMatches content 0) content 0 (Nat.zero_le _)
      (by rw [List.drop_zero]) kv h

theorem lookupD_mem (d : List (String × String)) (k v : String)
    (h : lookupD d k = some v) : (k, v) ∈ d := by
  unfold lookupD at h
  rcases Option.map_eq_some'.mp h with ⟨kv, hfind, rfl⟩
  have hp : kv.1 = k := by simpa using List.find?_some hfind
  have hmem := List.mem_of_find?_eq_some hfind
  rw [← hp]
  simpa [Prod.mk.eta] using hmem

theorem find_reverse_last (cp : List (String × String)) (k : String) :
    ∀ (i : Nat) (entry : String × String), cp[i]? = some entry → entry.1 = k →
    (∀ j e2, i < j → cp[j]? = some e2 → e2.1 ≠ k) →
    cp.reverse.find? (fun kv => kv.1 = k) = some entry := by
  induction cp with
  | nil =>
    intro i entry h
    simp at h
  | cons x tl ih =>
    intro i entry h hk hlater
    rw [List.reverse_cons, List.find?_append]
    cases i with
    | zero =>
      simp only [List.getElem?_cons_zero, Option.some.injEq] at h
      subst h
      have hnone : tl.reverse.find? (fun kv => kv.1 = k) = none := by
        rw [List.find?_eq_none]
        intro kv hmem
        rw [List.mem_reverse] at hmem
        obtain ⟨j, hj⟩ := List.mem_iff_getElem?.mp hmem
        have hne := hlater (j + 1) kv (Nat.succ_pos j) (by simpa using hj)
        simp [hne]
      rw [hnone]
      simp [hk]
    | succ i =>
      simp only [List.getElem?_cons_succ] at h
      have hlater2 : ∀ j e2, i < j → tl[j]? = some e2 → e2.1 ≠ k := by
        intro j e2 hij hje
        exact hlater (j + 1) e2 (by omega) (by simpa using hje)
      rw [ih i entry h hk hlater2]
      rfl

theorem parse_lookup (content : List Char) (k : String) :
    lookupD (parse_generated_content content) k =
      match (collectPosts content (findMatches content 0)).reverse.find?
        (fun kv => kv.1 = k) with
      | some kv => some kv.2
      | none => none := by
  unfold parse_generated_content
  rw [lookupD_fold]
  cases h : (collectPosts content (findMatches content 0)).reverse.find?
    (fun kv => kv.1 = k) <;> rfl

/-- The dict built by `parse_generated_content` maps a key to the cleaned
body of the *last* marker that captured it. -/
theorem parse_lookup_of_index (content : List Char) (i : Nat) (k : List Char)
    (s e : Nat)
    (hi : (findMatches content 0)[i]? = some (k, s, e))
    (hlater : ∀ j kj sj ej, i < j →
      (findMatches content 0)[j]? = some (kj, sj, ej) → kj ≠ k) :
    lookupD (parse_generated_content content) (String.mk k) =
      some (String.mk (stripBody ((content.drop e).take
        (nextStart content (findMatches content 0) i - e)))) := by
  have hentry := collectPosts_get content (findMatches content 0) i k s e hi
  have hlater2 : ∀ j e2, i < j →
      (collectPosts content (findMatches content 0))[j]? = some e2 →
      e2.1 ≠ String.mk k := by
    intro j e2 hij hje
    have hjlt : j < (collectPosts content (findMatches content 0)).length := by
      by_contra hge
      rw [List.getElem?_eq_none (Nat.le_of_not_lt hge)] at hje
      cases hje
    have hjms : j < (findMatches content 0).length := by
      rwa [collectPosts_length] at hjlt
    obtain ⟨⟨kj, sj, ej⟩, hmj⟩ : ∃ m, (findMatches content 0)[j]? = some m := by
      rw [List.getElem?_eq_getElem hjms]
      exact ⟨_, rfl⟩
    have hj2 := collectPosts_get content (findMatches content 0) j kj sj ej hmj
    rw [hj2] at hje
    cases hje
    have hkj := hlater j kj sj ej hij hmj
    intro heq
    exact hkj (congrArg String.data heq)
  have hfind := find_reverse_last (collectPosts content (findMatches content 0))
    (String.mk k) i _ hentry rfl hlater2
  rw [parse_lookup, hfind]

theorem dictInsert_nodupKeys (d : List (String × String)) (k v : String)
    (h : (d.map (fun kv => kv.1)).Nodup) :
    ((dictInsert d k v).map (fun kv => kv.1)).Nodup := by
  unfold dictInsert
  split
  · have heq : (d.map (fun kv => if kv.1 = k then (k, v) else kv)).map
        (fun kv => kv.1) = d.map (fun kv => kv.1) := by
      rw [List.map_map]
      apply List.map_congr_left
      intro kv _
      by_cases hk : kv.1 = k <;> simp [hk]
    rw [heq]
    exact h
  · rename_i hany
    rw [List.map_append]
    rw [List.nodup_append]
    refine ⟨h, List.nodup_singleton _, ?_⟩
    intro x hx hx2
    simp only [List.map_cons, List.map_nil, List.mem_singleton] at hx2
    subst hx2
    rcases List.mem_map.mp hx with ⟨kv, hkv, hkeq⟩
    exact hany (List.any_eq_true.mpr ⟨kv, hkv, by simp [hkeq]⟩)

theorem fold_nodupKeys (l : List (String × String))
    (d : List (String × String)) (h : (d.map (fun kv => kv.1)).Nodup) :
    ((l.foldl (fun posts x => dictInsert posts x.1 x.2) d).map
      (fun kv => kv.1)).Nodup := by
  induction l generalizing d with
  | nil => exact h
  | cons x tl ih =>
    simp only [List.foldl_cons]
    exact ih _ (dictInsert_nodupKeys d x.1 x.2 h)

theorem lookupD_of_mem_nodup (d : List (String × String)) (k v : String)
    (hnd : (d.map (fun kv => kv.1)).Nodup) (hm : (k, v) ∈ d) :
    lookupD d k = some v := by
  induction d with
  | nil => cases hm
  | cons x tl ih =>
    simp only [List.map_cons, List.nodup_cons] at hnd
    rcases List.mem_cons.mp hm with hm1 | hm1
    · rw [lookupD_cons, ← hm1]
      simp
    · have hk : k ∈ tl.map (fun kv => kv.1) :=
        List.mem_map.mpr ⟨(k, v), hm1, rfl⟩
      have hx1 : ¬(x.1 = k) := fun he => hnd.1 (he ▸ hk)
      rw [lookupD_cons, if_neg hx1]
      exact ih hnd.2 hm1

/-- The dict `parse_generated_content` returns has pairwise-distinct keys, so
a key's association is unique and equals `lookupD`. -/
theorem parse_mem_lookup (content : List Char) (k v : String)
    (hm : (k, v) ∈ parse_generated_content content) :
    lookupD (parse_generated_content content) k = some v := by
  apply lookupD_of_mem_nodup _ _ _ _ hm
  unfold parse_generated_content
  exact fold_nodupKeys _ [] (by simp)

/-- The per-item selection of the headline loop: a present, non-empty title
is kept (cleaned), everything else is dropped. -/
def titleKeep : Option String → Option String
  | some t => if t ≠ "" then some (cleanTitle t) else none
  | none => none

theorem scrape_aux_filterMap (l : List (Option String)) (acc : List String) :
    l.foldl
      (fun headlines title =>
        match title with
        | some t => if t ≠ "" then headlines ++ [cleanTitle t] else headlines
        | none => headlines)
      acc = acc ++ l.filterMap titleKeep := by
  induction l generalizing acc with
  | nil => simp
  | cons t tl ih =>
    rw [List.foldl_cons, ih]
    cases t with
    | none => simp [titleKeep]
    | some s =>
      by_cases hs : s = ""
      · simp [titleKeep, hs]
      · simp [titleKeep, hs]

theorem scrape_eq_filterMap (items : List (Option String)) (m : Nat) :
    scrape_google_news items m = (items.take m).filterMap titleKeep := by
  unfold scrape_google_news
  rw [scrape_aux_filterMap]
  rfl

theorem filterMap_refine_sublist (f g : Option String → Option String)
    (h : ∀ x y, f x = some y → g x = some y) (l : List (Option String)) :
    List.Sublist (l.filterMap f) (l.filterMap g) := by
  induction l with
  | nil => simp
  | cons a tl ih =>
    rw [List.filterMap_cons, List.filterMap_cons]
    cases hf : f a with
    | none =>
      apply List.Sublist.trans ih
      cases g a with
      | none => exact List.Sublist.refl _
      | some y => exact List.sublist_cons_self _ _
    | some y =>
      rw [h a y hf]
      exact List.Sublist.cons₂ y ih

theorem collapse_all_space (l : List Char) : ∀ b,
    (collapseAux b l).all (fun c => !isPySpace c || c = ' ') = true := by
  induction l with
  | nil => intro b; rfl
  | cons c rest ih =>
    intro b
    cases hws : isPySpace c with
    | true =>
      cases b with
      | true => simpa [collapseAux, hws] using ih true
      | false =>
        rw [collapseAux, if_pos hws, if_neg Bool.false_ne_true, List.all_cons]
        rw [ih true]
        simp [isPySpace]
    | false =>
      simp only [collapseAux, hws, Bool.false_eq_true, if_false, List.all_cons]
      rw [ih false]
      simp [hws]

theorem collapse_head_true (l : List Char) : ∀ c,
    (collapseAux true l).head? = some c → isPySpace c = false := by
  induction l with
  | nil => intro c h; cases h
  | cons a rest ih =>
    intro c h
    cases hws : isPySpace a with
    | true =>
      rw [collapseAux, if_pos hws] at h
      exact ih c h
    | false =>
      rw [collapseAux, if_neg (by rw [hws]; exact Bool.false_ne_true)] at h
      simp only [List.head?_cons, Option.some.injEq] at h
      rw [← h]
      exact hws

theorem collapse_nil_all_ws (l : List Char) : ∀ b,
    collapseAux b l = [] → ∀ c ∈ l, isPySpace c = true := by
  induction l with
  | nil => intro b _ c hc; cases hc
  | cons a rest ih =>
    intro b h c hc
    cases hws : isPySpace a with
    | true =>
      cases b with
      | true =>
        rw [collapseAux, if_pos hws] at h
        rcases List.mem_cons.mp hc with rfl | hc2
        · exact hws
        · exact ih true h c hc2
      | false =>
        rw [collapseAux, if_pos hws] at h
        cases h
    | false =>
      rw [collapseAux, if_neg (by rw [hws]; exact Bool.false_ne_true)] at h
      cases h

theorem noTwoWs_cons (c : Char) (X : List Char)
    (h : ∀ x, X.head? = some x → (isPySpace c && isPySpace x) = false)
    (h2 : noTwoWs X = true) : noTwoWs (c :: X) = true := by
  cases X with
  | nil => rfl
  | cons x xs =>
    rw [noTwoWs]
    rw [h x rfl, h2]
    rfl

theorem noTwoWs_collapse (l : List Char) : ∀ b,
    noTwoWs (collapseAux b l) = true := by
  induction l with
  | nil => intro b; rfl
  | cons c rest ih =>
    intro b
    cases hws : isPySpace c with
    | true =>
      cases b with
      | true =>
        rw [collapseAux, if_pos hws]
        exact ih true
      | false =>
        rw [collapseAux, if_pos hws]
        apply noTwoWs_cons
        · intro x hx
          rw [collapse_head_true rest x hx]
          rfl
        · exact ih true
    | false =>
      rw [collapseAux, if_neg (by rw [hws]; exact Bool.false_ne_true)]
      apply noTwoWs_cons
      · intro x _
        rw [hws]
        rfl
      · exact ih false

theorem collapse_last (l : List Char) : ∀ b,
    (∀ c, l.getLast? = some c → isPySpace c = false) →
    ∀ c, (collapseAux b l).getLast? = some c → isPySpace c = false := by
  induction l with
  | nil => intro b _ c h; cases h
  | cons a rest ih =>
    intro b hl c h
    cases rest with
    | nil =>
      have ha : isPySpace a = false := hl a rfl
      rw [collapseAux, if_neg (by rw [ha]; exact Bool.false_ne_true)] at h
      simp only [collapseAux, List.getLast?_singleton, Option.some.injEq] at h
      rw [← h]
      exact ha
    | cons r1 rest2 =>
      have hl2 : ∀ c, (r1 :: rest2).getLast? = some c → isPySpace c = false := by
        intro c2 hc2
        exact hl c2 (by rw [List.getLast?_cons_cons]; exact hc2)
      cases hws : isPySpace a with
      | true =>
        cases b with
        | true =>
          rw [collapseAux, if_pos hws] at h
          exact ih true hl2 c h
        | false =>
          rw [collapseAux, if_pos hws, if_neg Bool.false_ne_true] at h
          cases hX : collapseAux true (r1 :: rest2) with
          | nil =>
            exfalso
            have hall := collapse_nil_all_ws (r1 :: rest2) true hX
            have hlast : (r1 :: rest2).getLast? = some ((r1 :: rest2).getLast
                (by simp)) := List.getLast?_eq_getLast _ _
            have hmem := List.getLast_mem (l := r1 :: rest2) (by simp)
            have := hl2 _ hlast
            rw [hall _ hmem] at this
            cases this
          | cons x xs =>
            rw [hX, List.getLast?_cons_cons] at h
            rw [← hX] at h
            exact ih true hl2 c h
      | false =>
        rw [collapseAux, if_neg (by rw [hws]; exact Bool.false_ne_true)] at h
        cases hX : collapseAux false (r1 :: rest2) with
        | nil =>
          exfalso
          have hall := collapse_nil_all_ws (r1 :: rest2) false hX
          have hlast : (r1 :: rest2).getLast? = some ((r1 :: rest2).getLast
              (by simp)) := List.getLast?_eq_getLast _ _
          have hmem := List.getLast_mem (l := r1 :: rest2) (by simp)
          have := hl2 _ hlast
          rw [hall _ hmem] at this
          cases this
        | cons x xs =>
          rw [hX, List.getLast?_cons_cons] at h
          rw [← hX] at h
          exact ih false hl2 c h

/-- Every cleaned title is fully whitespace-normalized. -/
theorem cleanTitle_normalized (t : String) : wsNormalized (cleanTitle t).data := by
  show wsNormalized (collapseAux false (pyStrip t.data))
  refine ⟨collapse_all_space _ false, noTwoWs_collapse _ false, ?_, ?_⟩
  · cases hh : (collapseAux false (pyStrip t.data)).head? with
    | none => simp [hh]
    | some c =>
      have hcf : isPySpace c = false := by
        cases hm : pyStrip t.data with
        | nil =>
          rw [hm] at hh
          cases hh
        | cons c0 tl =>
          have hc0 : isPySpace c0 = false :=
            pyStrip_head_not_ws t.data c0 (by rw [hm]; rfl)
          rw [hm, collapseAux,
            if_neg (by rw [hc0]; exact Bool.false_ne_true)] at hh
          simp only [List.head?_cons, Option.some.injEq] at hh
          rw [← hh]
          exact hc0
      simp [hh, hcf]
  · cases hh : (collapseAux false (pyStrip t.data)).getLast? with
    | none => simp [hh]
    | some c =>
      have hcf := collapse_last (pyStrip t.data) false
        (fun c2 h2 => pyStrip_last_not_ws t.data c2 h2) c hh
      simp [hh, hcf]

/-- C1 counterexample: on `"**Day 1:T** hi"` the raw body between the end of
the marker and the end of the text is `" hi"`, which contains no blank line,
so the claim predicts the body `" hi"` unchanged; the code's `.strip()` also
removes the leading space and stores `"hi"`. -/
theorem C1_counterexample :
    parse_generated_content ("**Day 1:T** hi".data) = [("1", "hi")] ∧
    specStripBlankLines (" hi".data) = " hi".data ∧
    lookupD (parse_generated_content ("**Day 1:T** hi".data)) "1" ≠
      some (String.mk (specStripBlankLines (" hi".data))) := by
  refine ⟨?_, by decide, ?_⟩
  · rw [parse_eval]
    decide
  · rw [parse_eval]
    decide

/-- C1 (amended): for the `i`-th day marker, when no later marker captures
the same digit string, the mapping associates its key with exactly the
substring strictly between the end of marker `i` and the start of marker
`i+1` (or the end of the text), with leading and trailing *whitespace*
(spaces, tabs and newlines — Python `str.strip`) removed, not only blank
lines; nothing else is removed. -/
theorem C1_amended_body (content : List Char) (i : Nat) (k : List Char)
    (s e : Nat)
    (hi : (findMatches content 0)[i]? = some (k, s, e))
    (hlater : ∀ j, j < (findMatches content 0).length → i < j →
      ((findMatches content 0)[j]?.all fun m => m.1 ≠ k) = true) :
    lookupD (parse_generated_content content) (String.mk k) =
      some (String.mk (pyStrip ((content.drop e).take
        (nextStart content (findMatches content 0) i - e)))) := by
  have hlater2 : ∀ j kj sj ej, i < j →
      (findMatches content 0)[j]? = some (kj, sj, ej) → kj ≠ k := by
    intro j kj sj ej hij hj
    by_cases hjl : j < (findMatches content 0).length
    · have := hlater j hjl hij
      rw [hj] at this
      simpa using this
    · rw [List.getElem?_eq_none (Nat.le_of_not_lt hjl)] at hj
      cases hj
  rw [parse_lookup_of_index content i k s e hi hlater2, stripBody_eq_pyStrip]

/-- Witness for C1: on `"**Day 1:T** hi"` the single marker's body is the
whitespace-stripped between-markers substring, `"hi"`. -/
theorem C1_witness :
    lookupD (parse_generated_content ("**Day 1:T** hi".data))
      (String.mk ['1']) = some "hi" := by
  have h := C1_amended_body ("**Day 1:T** hi".data) 0 ['1'] 0 11
    (by rw [findMatches_eval]; decide)
    (by rw [findMatches_eval]; decide)
  rw [h]
  rw [findMatches_eval]
  decide

/-- C2 counterexample: an item whose title text is the single space `" "` is
truthy, so it is kept, and cleaning maps it to the empty string: the
returned headline list is `[""]`, so not every returned headline is
non-empty. -/
theorem C2_counterexample :
    scrape_google_news [some " "] 5 = [""] ∧
    ¬(∀ h ∈ scrape_google_news [some " "] 5, h ≠ "") := by
  refine ⟨by decide, ?_⟩
  intro hall
  exact hall "" (by decide) rfl

/-- C2 (amended): every returned headline has all whitespace runs collapsed
to a single space and no leading or trailing whitespace, and comes from a
present title with non-empty text; but a whitespace-only title is *not*
dropped — it yields an empty headline — so returned headlines need not be
non-empty. -/
theorem C2_amended_normalized (items : List (Option String)) (m : Nat)
    (h : String) (hmem : h ∈ scrape_google_news items m) :
    wsNormalized h.data ∧
    ∃ t, some t ∈ items.take m ∧ t ≠ "" ∧ h = cleanTitle t := by
  rw [scrape_eq_filterMap] at hmem
  rcases List.mem_filterMap.mp hmem with ⟨x, hx, hfx⟩
  cases x with
  | none => simp [titleKeep] at hfx
  | some t =>
    simp only [titleKeep] at hfx
    by_cases ht : t = ""
    · rw [if_neg (by simp [ht])] at hfx
      cases hfx
    · rw [if_pos (by simpa using ht)] at hfx
      have := Option.some.inj hfx
      subst this
      exact ⟨cleanTitle_normalized t, t, hx, ht, rfl⟩

/-- Witness for C2: the title `"a\t\n b  c "` is returned as the fully
normalized headline `"a b c"`. -/
theorem C2_witness :
    wsNormalized (("a b c" : String).data) ∧
    ("a b c" : String) = cleanTitle "a\t\n b  c " := by
  have h := C2_amended_normalized [some "a\t\n b  c "] 3 "a b c" (by decide)
  exact ⟨h.1, by decide⟩

/-- C3: when two or more markers capture the same digit string, the mapping
associates that key with the body of the *last* such marker in document
order; no earlier body appears under that key. -/
theorem C3_duplicate_last_wins (content : List Char) (i j : Nat)
    (k : List Char) (si ei sj ej : Nat)
    (_hij : i < j)
    (_hi : (findMatches content 0)[i]? = some (k, si, ei))
    (hj : (findMatches content 0)[j]? = some (k, sj, ej))
    (hlast : ∀ m, m < (findMatches content 0).length → j < m →
      ((findMatches content 0)[m]?.all fun x => x.1 ≠ k) = true) :
    lookupD (parse_generated_content content) (String.mk k) =
      some (String.mk (stripBody ((content.drop ej).take
        (nextStart content (findMatches content 0) j - ej)))) ∧
    ∀ v, (String.mk k, v) ∈ parse_generated_content content →
      v = String.mk (stripBody ((content.drop ej).take
        (nextStart content (findMatches content 0) j - ej))) := by
  have hlater2 : ∀ m km sm em, j < m →
      (findMatches content 0)[m]? = some (km, sm, em) → km ≠ k := by
    intro m km sm em hjm hm
    by_cases hml : m < (findMatches content 0).length
    · have := hlast m hml hjm
      rw [hm] at this
      simpa using this
    · rw [List.getElem?_eq_none (Nat.le_of_not_lt hml)] at hm
      cases hm
  have hlook := parse_lookup_of_index content j k sj ej hj hlater2
  refine ⟨hlook, ?_⟩
  intro v hv
  have := parse_mem_lookup content (String.mk k) v hv
  rw [hlook] at this
  exact (Option.some.inj this).symm

/-- Witness for C3: on `"**Day 1:a**X**Day 1:b**Y"` both markers capture
`"1"`; the mapping keeps only the later body `"Y"`. -/
theorem C3_witness :
    lookupD (parse_generated_content ("**Day 1:a**X**Day 1:b**Y".data))
      (String.mk ['1']) = some "Y" := by
  have h := C3_duplicate_last_wins ("**Day 1:a**X**Day 1:b**Y".data) 0 1
    ['1'] 0 11 12 23 (by decide)
    (by rw [findMatches_eval]; decide)
    (by rw [findMatches_eval]; decide)
    (by rw [findMatches_eval]; decide)
  rw [h.1]
  rw [findMatches_eval]
  decide

/-- C4: a reply with an empty choice list makes `call_together_api` fail
with a `TogetherAPIError` — it neither returns normally nor produces any
other error kind — and the error text carries the underlying cause
`"No content generated by API"`. -/
theorem C4_empty_choices_error (response : ApiResponse)
    (h : response.choices = []) :
    call_together_api (.reply response) =
      .error (.togetherAPIError
        ("API request failed: " ++ "No content generated by API")) := by
  obtain ⟨choices⟩ := response
  have h2 : choices = [] := h
  subst h2
  rfl

/-- Witness for C4 at the concrete empty response. -/
theorem C4_witness :
    call_together_api (.reply ⟨[]⟩) =
      .error (.togetherAPIError
        ("API request failed: " ++ "No content generated by API")) :=
  C4_empty_choices_error ⟨[]⟩ rfl

/-- C5: `parse_generated_content` is a total function (the embedding never
fails), and when the scan finds zero day markers it returns the empty
mapping rather than an error. -/
theorem C5_no_markers_empty (content : List Char)
    (h : findMatches content 0 = []) :
    parse_generated_content content = [] := by
  unfold parse_generated_content
  rw [h]
  rfl

/-- Witness for C5: `"hello world"` has no markers and parses to the empty
mapping. -/
theorem C5_witness :
    findMatches ("hello world".data) 0 = [] ∧
    parse_generated_content ("hello world".data) = [] := by
  have h1 : findMatches ("hello world".data) 0 = [] := by
    rw [findMatches_eval]
    decide
  exact ⟨h1, C5_no_markers_empty ("hello world".data) h1⟩

/-- C6: the headline list never exceeds `max_headlines` entries, and it is a
sublist (same relative order, no resorting) of the cleaned titles of the
whole feed in document order. -/
theorem C6_bounded_ordered (items : List (Option String)) (m : Nat) :
    (scrape_google_news items m).length ≤ m ∧
    List.Sublist (scrape_google_news items m)
      ((items.filterMap id).map cleanTitle) := by
  constructor
  · rw [scrape_eq_filterMap]
    exact Nat.le_trans (List.length_filterMap_le _ _) (List.length_take_le _ _)
  · rw [scrape_eq_filterMap, List.map_filterMap]
    have h1 : List.Sublist ((items.take m).filterMap titleKeep)
        (items.filterMap titleKeep) :=
      List.Sublist.filterMap _ (List.take_sublist m items)
    have h2 := filterMap_refine_sublist titleKeep
      (fun t => (id t).map cleanTitle) ?_ items
    · exact h1.trans h2
    · intro x y hf
      cases x with
      | none => simp [titleKeep] at hf
      | some t =>
        simp only [titleKeep] at hf
        by_cases ht : t = ""
        · rw [if_neg (by simp [ht])] at hf
          cases hf
        · rw [if_pos (by simpa using ht)] at hf
          simpa using hf

/-- C7: `construct_viral_prompt` is pure and deterministic — the embedding is
a function of its four arguments only, so identical arguments give
byte-identical prompt text. -/
theorem C7_compose_deterministic (bio recent_post industry bio2 recent_post2
    industry2 : String) (hl hl2 : List String)
    (h : bio = bio2 ∧ recent_post = recent_post2 ∧ industry = industry2 ∧
      hl = hl2) :
    construct_viral_prompt bio recent_post industry hl =
      construct_viral_prompt bio2 recent_post2 industry2 hl2 := by
  obtain ⟨rfl, rfl, rfl, rfl⟩ := h
  rfl

/-- Witness for C7 at concrete profile data. -/
theorem C7_witness :
    construct_viral_prompt "B" "P" "fintech" ["A"] =
      construct_viral_prompt "B" "P" "fintech" ["A"] :=
  C7_compose_deterministic "B" "P" "fintech" "B" "P" "fintech" ["A"] ["A"]
    ⟨rfl, rfl, rfl, rfl⟩

/-- C8: the keys of the returned mapping are exactly the digit strings
captured by the markers, used verbatim — no numeric normalization — and any
digit string is accepted. -/
theorem C8_keys_verbatim (content : List Char) (k : String) :
    (∃ v, (k, v) ∈ parse_generated_content content) ↔
    (∃ m ∈ findMatches content 0, String.mk m.1 = k) := by
  constructor
  · rintro ⟨v, hv⟩
    unfold parse_generated_content at hv
    rcases mem_fold_dict _ _ _ hv with h | h
    · cases h
    · have hk : k ∈ (collectPosts content (findMatches content 0)).map
          (fun kv => kv.1) := List.mem_map.mpr ⟨(k, v), h, rfl⟩
      rw [collectPosts_keys] at hk
      rcases List.mem_map.mp hk with ⟨m, hm, hm2⟩
      exact ⟨m, hm, hm2⟩
  · rintro ⟨m, hm, rfl⟩
    have hkmem : String.mk m.1 ∈
        (collectPosts content (findMatches content 0)).map (fun kv => kv.1) := by
      rw [collectPosts_keys]
      exact List.mem_map.mpr ⟨m, hm, rfl⟩
    rcases List.mem_map.mp hkmem with ⟨kv, hkv, hkeq⟩
    cases hf : (collectPosts content (findMatches content 0)).reverse.find?
        (fun x => x.1 = String.mk m.1) with
    | none =>
      exfalso
      rw [List.find?_eq_none] at hf
      exact absurd (by simp [hkeq]) (hf kv (List.mem_reverse.mpr hkv))
    | some kv2 =>
      have hl : lookupD (parse_generated_content content) (String.mk m.1) =
          some kv2.2 := by
        rw [parse_lookup, hf]
      exact ⟨kv2.2, lookupD_mem _ _ _ hl⟩

/-- C10: every key of the returned mapping is a non-empty string of decimal
digits, and no body value contains a complete day-marker substring. -/
theorem C10_invariants (content : List Char) (kv : String × String)
    (hkv : kv ∈ parse_generated_content content) :
    (kv.1 ≠ "" ∧ ∀ c ∈ kv.1.data, c.isDigit) ∧
    ∀ p, matchDayAt (kv.2.data.drop p) = none := by
  obtain ⟨⟨h1, h2⟩, h3⟩ := parse_sound content kv hkv
  refine ⟨⟨?_, h2⟩, h3⟩
  intro he
  exact h1 (by rw [he])

/-- Witness for C10 at the entry `("1", "hi")` of the parse of
`"**Day 1:T** hi"`. -/
theorem C10_witness :
    (("1" : String) ≠ "" ∧ ∀ c ∈ ("1" : String).data, c.isDigit) ∧
    matchDayAt ((("hi" : String).data).drop 0) = none := by
  have h := C10_invariants ("**Day 1:T** hi".data) ("1", "hi")
    (by rw [parse_eval]; decide)
  exact ⟨h.1, h.2 0⟩

/-- C9: every error `call_together_api` produces — the transport-failure
cases and the zero-choices case alike — is a `TogetherAPIError` whose
message starts with `"API request failed: "`; the inner zero-choices error
is caught by the surrounding handler and re-wrapped, so its own text only
appears inside the wrapped message. -/
theorem C9_error_prefix (outcome : TransportOutcome) (e : PyExc)
    (h : call_together_api outcome = .error e) :
    ∃ cause, e = .togetherAPIError ("API request failed: " ++ cause) := by
  unfold call_together_api at h
  cases ht : call_together_api_try outcome with
  | ok v =>
    rw [ht] at h
    cases h
  | error e0 =>
    rw [ht] at h
    exact ⟨excStr e0, (Except.error.inj h).symm⟩

/-- Witness for C9 at a concrete transport failure. -/
theorem C9_witness :
    ∃ cause, PyExc.togetherAPIError ("API request failed: " ++ "boom") =
      .togetherAPIError ("API request failed: " ++ cause) :=
  C9_error_prefix (.raises (.otherExc "boom"))
    (.togetherAPIError ("API request failed: " ++ "boom")) rfl
